import Mathlib

/-!
# Verification of `compute_merkle_witness` (Merkle proof generator)

Shallow embedding of `src/py/merkle_proof_generator/main.py`.

The source function `compute_merkle_witness(state, validator_index)` derives a
generalized index for the target element, takes the state's backing Merkle
tree, records the tree's Merkle root, and then walks the tree bit-by-bit
following the direction bits of the generalized index, collecting sibling
hashes into a witness list.  The backing tree (from the external
`remerkleable` library) is a binary tree whose nodes are either pair nodes
with two children or root (leaf) nodes holding a 32-byte hash; calling
`get_left`/`get_right` on a leaf raises `NavigationError`, and Python raises
`ValueError` when a shift amount is negative.

We embed the tree, the hashing, the traversal loop and the hex rendering of
the result, and prove the testable properties of the design document against
them.  The Witness Verifier of the design document does not appear in the
source; it is modelled from the document's own algorithm (section 4.2) where
a claim requires it.
-/

/-- A node of the backing Merkle tree: either a leaf holding a hash value
directly (remerkleable `RootNode`), or an internal pair node with two
children (remerkleable `PairNode`). The hash type is kept abstract. -/
inductive Node (α : Type) where
  | leaf (h : α) : Node α
  | node (l r : Node α) : Node α
deriving DecidableEq, Repr

/-- `merkle_root` of a node, for a fixed two-input combining function `H`
(the source's `merkle_hash` over two 32-byte children): a leaf returns its
stored hash, an internal node hashes the roots of its two children. -/
def Node.merkle_root (H : α → α → α) : Node α → α
  | .leaf h => h
  | .node l r => H (l.merkle_root H) (r.merkle_root H)

/-- Python-level errors the source can raise while computing a witness:
`navigationError` models remerkleable's `NavigationError`, raised by
`get_left` / `get_right` on a leaf node (the design document's
`OutOfRangeIndex` situation); `valueError` models Python's `ValueError`
raised by `1 << k` with a negative shift amount `k`. -/
inductive PyError where
  | navigationError : PyError
  | valueError : PyError
deriving DecidableEq, Repr

/-- The Proof tuple returned by the source (hash-level view, before hex
rendering): `{"gindex": ..., "root": ..., "witness": ..., "value": ...}`. -/
structure Proof (α : Type) where
  gindex : Nat
  root : α
  witness : List α
  value : α
deriving DecidableEq, Repr

/-- Python `int.bit_length()` on a non-negative integer. -/
def bit_length (n : Nat) : Nat :=
  if n = 0 then 0 else Nat.log2 n + 1

/-- The traversal loop of `compute_merkle_witness`:

    while check_bit > 0:
        if check_bit & target_gindex != 0:
            witness.append("0x" + node.get_left().merkle_root().hex())
            node = node.get_right()
        else:
            witness.append("0x" + node.get_right().merkle_root().hex())
            node = node.get_left()
        check_bit >>= 1

Hash-level view (hex rendering of the appended entries is handled
separately).  On a leaf node, `get_left`/`get_right` raise
`NavigationError`, aborting the loop. -/
def witnessLoop (H : α → α → α) (g : Nat) (node : Node α) (checkBit : Nat)
    (w : List α) : Except PyError (Node α × List α) :=
  if h : checkBit > 0 then
    match node with
    | .leaf _ => .error .navigationError
    | .node l r =>
      if checkBit &&& g ≠ 0 then
        witnessLoop H g r (checkBit >>> 1) (w ++ [l.merkle_root H])
      else
        witnessLoop H g l (checkBit >>> 1) (w ++ [r.merkle_root H])
  else
    .ok (node, w)
termination_by checkBit
decreasing_by
  all_goals
    simp only [Nat.shiftRight_one]
    exact Nat.div_lt_self h (by omega)

/-- `compute_merkle_witness`, hash-level view.  Follows the source
line-by-line: record the tree's Merkle root, set
`check_bit = 1 << (bit_length(gindex) - 2)` (raising `ValueError` when the
shift amount is negative, i.e. when `bit_length(gindex) < 2`), run the
traversal loop starting from the tree root with an empty witness, and return
the Proof whose `value` is the Merkle root of the node reached. -/
def compute_merkle_witness (H : α → α → α) (tree : Node α) (g : Nat) :
    Except PyError (Proof α) :=
  let root := tree.merkle_root H
  let shift : Int := (bit_length g : Int) - 2
  if shift < 0 then .error .valueError
  else
    match witnessLoop H g tree (1 <<< shift.toNat) [] with
    | .error e => .error e
    | .ok (node, w) => .ok ⟨g, root, w, node.merkle_root H⟩

/-- The direction bits of a gindex, most-significant direction first:
`bitsDown g j = [testBit g (j-1), ..., testBit g 0]` (length `j`). -/
def bitsDown (g : Nat) : Nat → List Bool
  | 0 => []
  | j + 1 => g.testBit j :: bitsDown g j

/-- Structural descent along a list of direction bits (`true` = right,
`false` = left); `none` when a leaf is reached with bits remaining. -/
def follow : Node α → List Bool → Option (Node α)
  | n, [] => some n
  | .leaf _, _ :: _ => none
  | .node l r, b :: bs => follow (if b then r else l) bs

/-- The sibling hashes recorded along a descent: at each internal node the
root of the child NOT taken, ordered from the level nearest the root down. -/
def siblings (H : α → α → α) : Node α → List Bool → List α
  | _, [] => []
  | .leaf _, _ :: _ => []
  | .node l r, b :: bs =>
      (if b then l.merkle_root H else r.merkle_root H) ::
        siblings H (if b then r else l) bs

/-! ## Basic lemmas about the traversal -/

theorem two_pow_shiftRight_one (j : Nat) : (2 ^ (j + 1)) >>> 1 = 2 ^ j := by
  simp [Nat.shiftRight_one, Nat.pow_succ]

theorem two_pow_and_ne_zero_iff (g j : Nat) :
    (2 ^ j &&& g ≠ 0) ↔ g.testBit j = true := by
  rw [Nat.two_pow_and]
  cases h : g.testBit j <;> simp [h, (Nat.two_pow_pos j).ne.symm]

theorem witnessLoop_zero (H : α → α → α) (g : Nat) (node : Node α) (w : List α) :
    witnessLoop H g node 0 w = .ok (node, w) := by
  rw [witnessLoop.eq_def]
  simp

theorem witnessLoop_pos_leaf (H : α → α → α) (g : Nat) (x : α) (cb : Nat)
    (w : List α) (hcb : 0 < cb) :
    witnessLoop H g (.leaf x) cb w = .error .navigationError := by
  rw [witnessLoop.eq_def]
  simp [hcb]

theorem witnessLoop_pos_node (H : α → α → α) (g : Nat) (l r : Node α) (cb : Nat)
    (w : List α) (hcb : 0 < cb) :
    witnessLoop H g (.node l r) cb w =
      if cb &&& g ≠ 0 then
        witnessLoop H g r (cb >>> 1) (w ++ [l.merkle_root H])
      else
        witnessLoop H g l (cb >>> 1) (w ++ [r.merkle_root H]) := by
  rw [witnessLoop.eq_def]
  simp [hcb]

/-- The traversal loop with `check_bit = 2^j` is the structural descent along
the direction bits `j, j-1, ..., 0` of the gindex, collecting the sibling
hashes, and fails with `NavigationError` exactly when the descent meets a
leaf with bits remaining. -/
theorem witnessLoop_spec (H : α → α → α) (g : Nat) :
    ∀ (j : Nat) (node : Node α) (w : List α),
      witnessLoop H g node (2 ^ j) w =
        match follow node (bitsDown g (j + 1)) with
        | some target => .ok (target, w ++ siblings H node (bitsDown g (j + 1)))
        | none => .error .navigationError := by
  intro j
  induction j with
  | zero =>
    intro node w
    cases node with
    | leaf x =>
      rw [witnessLoop_pos_leaf H g x _ w (Nat.two_pow_pos 0)]
      simp [bitsDown, follow]
    | node l r =>
      rw [witnessLoop_pos_node H g l r _ w (Nat.two_pow_pos 0)]
      by_cases hb : g.testBit 0 = true
      · rw [if_pos ((two_pow_and_ne_zero_iff g 0).mpr hb)]
        simp [bitsDown, follow, siblings, hb, witnessLoop_zero]
      · rw [if_neg ((two_pow_and_ne_zero_iff g 0).not.mpr (by simp [hb]))]
        simp [bitsDown, follow, siblings, hb, witnessLoop_zero]
  | succ j ih =>
    intro node w
    cases node with
    | leaf x =>
      rw [witnessLoop_pos_leaf H g x _ w (Nat.two_pow_pos (j + 1))]
      simp [bitsDown, follow]
    | node l r =>
      rw [witnessLoop_pos_node H g l r _ w (Nat.two_pow_pos (j + 1))]
      rw [two_pow_shiftRight_one]
      by_cases hb : g.testBit (j + 1) = true
      · rw [if_pos ((two_pow_and_ne_zero_iff g (j + 1)).mpr hb)]
        rw [ih]
        simp only [bitsDown, follow, siblings, hb, if_pos]
        cases follow r (bitsDown g (j + 1)) <;> simp
      · rw [if_neg ((two_pow_and_ne_zero_iff g (j + 1)).not.mpr (by simp [hb]))]
        rw [ih]
        simp only [bitsDown, follow, siblings, hb, Bool.false_eq_true, if_false]
        cases follow l (bitsDown g (j + 1)) <;> simp

theorem bit_length_lt_two_iff (g : Nat) : bit_length g < 2 ↔ g < 2 := by
  unfold bit_length
  rcases Nat.eq_zero_or_pos g with h0 | hpos
  · simp [h0]
  · rw [if_neg (by omega)]
    constructor
    · intro h
      by_contra hg
      have h2 : 2 ≤ g := by omega
      have : 1 ≤ Nat.log2 g := by
        rw [Nat.log2]
        rw [if_pos h2]
        omega
      omega
    · intro h
      have hg1 : g = 1 := by omega
      subst hg1
      norm_num [Nat.log2]

/-- On any gindex `g ≥ 2`, `compute_merkle_witness` is exactly: descend from
the tree root along the `bit_length g - 1` direction bits of `g` (taken from
the bit below the leading one down to bit 0, a `1` bit selecting the right
child), return the Proof carrying the tree's Merkle root, the sibling hashes
collected along the way, and the Merkle root of the node reached; fail with
`NavigationError` when the descent meets a leaf with bits remaining. -/
theorem compute_merkle_witness_char (H : α → α → α) (tree : Node α) (g : Nat)
    (hg : 2 ≤ g) :
    compute_merkle_witness H tree g =
      match follow tree (bitsDown g (bit_length g - 1)) with
      | some target =>
          .ok ⟨g, tree.merkle_root H,
               siblings H tree (bitsDown g (bit_length g - 1)),
               target.merkle_root H⟩
      | none => .error .navigationError := by
  have hbl : 2 ≤ bit_length g := by
    rcases Nat.lt_or_ge (bit_length g) 2 with h | h
    · exact absurd ((bit_length_lt_two_iff g).mp h) (by omega)
    · exact h
  unfold compute_merkle_witness
  rw [if_neg (by omega)]
  have htn : ((bit_length g : Int) - 2).toNat = bit_length g - 2 := by omega
  rw [htn, Nat.one_shiftLeft]
  rw [witnessLoop_spec H g (bit_length g - 2) tree []]
  have harith : bit_length g - 2 + 1 = bit_length g - 1 := by omega
  rw [harith]
  cases follow tree (bitsDown g (bit_length g - 1)) <;> simp

/-- For gindexes below 2 (in particular `g = 0` and the root index `g = 1`)
the shift amount `bit_length g - 2` is negative and the source raises
`ValueError` before the loop runs. -/
theorem compute_merkle_witness_lt_two (H : α → α → α) (tree : Node α) (g : Nat)
    (hg : g < 2) :
    compute_merkle_witness H tree g = .error .valueError := by
  have hbl : bit_length g < 2 := (bit_length_lt_two_iff g).mpr hg
  unfold compute_merkle_witness
  rw [if_pos (by omega)]

/-! ## Length of the witness -/

theorem bitsDown_length (g : Nat) : ∀ j, (bitsDown g j).length = j := by
  intro j
  induction j with
  | zero => rfl
  | succ j ih => simp [bitsDown, ih]

theorem siblings_length (H : α → α → α) :
    ∀ (bs : List Bool) (t target : Node α),
      follow t bs = some target → (siblings H t bs).length = bs.length := by
  intro bs
  induction bs with
  | nil => intro t target _; cases t <;> rfl
  | cons b bs ih =>
    intro t target hf
    cases t with
    | leaf x => simp [follow] at hf
    | node l r =>
      rw [follow] at hf
      simp only [siblings, List.length_cons]
      rw [ih _ _ hf]

/-! ## Root reconstruction (the fold of the design document's Verifier) -/

/-- Fold sibling hashes upward, deepest level first: the direction bits and
the witness entries are both given deepest-first; a `true` bit means the
recorded sibling was the left child, so it is hashed on the left. -/
def foldBits (H : α → α → α) : α → List Bool → List α → α
  | current, b :: bs, s :: ws =>
      foldBits H (if b then H s current else H current s) bs ws
  | current, _, _ => current

theorem foldBits_nil (H : α → α → α) (v : α) (ws : List α) :
    foldBits H v [] ws = v := by
  cases ws <;> rfl

theorem foldBits_append (H : α → α → α) :
    ∀ (bs₁ : List Bool) (ws₁ : List α) (v : α) (bs₂ : List Bool) (ws₂ : List α),
      bs₁.length = ws₁.length →
      foldBits H v (bs₁ ++ bs₂) (ws₁ ++ ws₂) =
        foldBits H (foldBits H v bs₁ ws₁) bs₂ ws₂ := by
  intro bs₁
  induction bs₁ with
  | nil =>
    intro ws₁ v bs₂ ws₂ hl
    have : ws₁ = [] := List.eq_nil_of_length_eq_zero hl.symm
    subst this
    simp [foldBits_nil]
  | cons b bs ih =>
    intro ws₁ v bs₂ ws₂ hl
    cases ws₁ with
    | nil => simp at hl
    | cons s ws =>
      simp only [List.cons_append, foldBits]
      exact ih ws _ bs₂ ws₂ (by simpa using hl)

/-- Folding the recorded siblings back up (deepest first) from the Merkle
root of the reached node reconstructs the Merkle root of the starting
node. -/
theorem foldBits_reconstruct (H : α → α → α) :
    ∀ (bs : List Bool) (t target : Node α),
      follow t bs = some target →
      foldBits H (target.merkle_root H) bs.reverse (siblings H t bs).reverse
        = t.merkle_root H := by
  intro bs
  induction bs with
  | nil =>
    intro t target hf
    simp only [follow, Option.some.injEq] at hf
    subst hf
    simp [foldBits_nil]
  | cons b bs ih =>
    intro t target hf
    cases t with
    | leaf x => simp [follow] at hf
    | node l r =>
      rw [follow] at hf
      simp only [siblings, List.reverse_cons]
      rw [foldBits_append H bs.reverse _ _ _ _
        (by simp [siblings_length H bs _ _ hf])]
      rw [ih _ _ hf]
      cases b <;> simp [foldBits, foldBits_nil, Node.merkle_root]

/-! ## The Witness Verifier (modelled from the design document) -/

/-- Modelled from the spec: the error of the Witness Verifier of section 4.2
(the Verifier is absent from the source, which only produces proofs):
`MalformedWitness` when the witness length does not match the direction-bit
count of the gindex. -/
inductive VerifierError where
  | malformedWitness : VerifierError
deriving DecidableEq, Repr

/-- Modelled from the spec: the fold of the Witness Verifier of section 4.2
(absent from the source).  It processes the direction bits of the gindex
from least significant (deepest level) upward, consuming witness entries
from the end of the list backward; a `1` bit means the Navigator went right
there and recorded the left sibling, so the entry is hashed on the left:
`current := H(entry, current)`; a `0` bit hashes it on the right. -/
def foldUp (H : α → α → α) : Nat → α → List α → α
  | _, current, [] => current
  | g, current, s :: ws =>
      foldUp H (g / 2) (if g % 2 = 1 then H s current else H current s) ws

/-- Modelled from the spec: the Witness Verifier contract
`verify(value, gindex, witness)` of section 4.2 (absent from the source):
check `len(witness) == bit_length(gindex) - 1` (else `MalformedWitness`),
then fold the witness entries upward from the deepest level, returning the
recomputed root. -/
def verify (H : α → α → α) (value : α) (g : Nat) (witness : List α) :
    Except VerifierError α :=
  if witness.length = bit_length g - 1 then
    .ok (foldUp H g value witness.reverse)
  else
    .error .malformedWitness

/-- The direction bits of a gindex, least-significant first. -/
def lsbBits : Nat → Nat → List Bool
  | _, 0 => []
  | g, k + 1 => g.testBit 0 :: lsbBits (g / 2) k

theorem foldUp_eq_foldBits (H : α → α → α) :
    ∀ (ws : List α) (g : Nat) (v : α),
      foldUp H g v ws = foldBits H v (lsbBits g ws.length) ws := by
  intro ws
  induction ws with
  | nil => intro g v; rfl
  | cons s ws ih =>
    intro g v
    simp only [foldUp, List.length_cons, lsbBits, foldBits]
    rw [ih]
    congr 1
    rcases Nat.mod_two_eq_zero_or_one g with h | h
    · simp [h, Nat.testBit_zero]
    · simp [h, Nat.testBit_zero]

theorem bitsDown_succ_eq (g : Nat) :
    ∀ k, bitsDown g (k + 1) = bitsDown (g / 2) k ++ [g.testBit 0] := by
  intro k
  induction k with
  | zero => simp [bitsDown]
  | succ k ih =>
    show g.testBit (k + 1) :: bitsDown g (k + 1) = _
    rw [ih]
    simp [bitsDown, Nat.testBit_succ]

theorem lsbBits_eq_reverse : ∀ (k g : Nat), lsbBits g k = (bitsDown g k).reverse := by
  intro k
  induction k with
  | zero => intro g; rfl
  | succ k ih =>
    intro g
    rw [bitsDown_succ_eq g k]
    simp only [lsbBits, List.reverse_append, List.reverse_cons,
      List.reverse_nil, List.nil_append, List.singleton_append]
    rw [ih]

/-! ## Hex rendering (Python `bytes.hex()` and the dict built by the source) -/

/-- A hash value as its byte sequence (32 bytes in the source). -/
abbrev Bytes := List Nat

/-- The lowercase hexadecimal digit character of `n % 16`: `0`-`9` for
values below ten, `a`-`f` for ten to fifteen. -/
def hexDigitChar (n : Nat) : Char :=
  if n % 16 < 10 then Char.ofNat ('0'.toNat + n % 16)
  else Char.ofNat ('a'.toNat + (n % 16 - 10))

/-- One byte rendered as two lowercase hexadecimal digits. -/
def byteHexChars (b : Nat) : List Char := [hexDigitChar (b / 16), hexDigitChar b]

/-- Python `bytes.hex()`: the byte sequence rendered as a lowercase
hexadecimal string, two digits per byte, with no prefix. -/
def bytesHex (bs : Bytes) : String := ⟨(bs.map byteHexChars).flatten⟩

/-- The dict returned by the source, string view: `root` and `value` are
rendered with `.hex()` alone, each witness entry with `"0x" + ....hex()`. -/
structure ProofHex where
  gindex : Nat
  root : String
  witness : List String
  value : String
deriving DecidableEq, Repr

/-- The traversal loop at string level, as written in the source: each
appended witness entry is `"0x" + sibling.merkle_root().hex()`. -/
def witnessLoopHex (H : Bytes → Bytes → Bytes) (g : Nat) (node : Node Bytes)
    (checkBit : Nat) (w : List String) :
    Except PyError (Node Bytes × List String) :=
  if h : checkBit > 0 then
    match node with
    | .leaf _ => .error .navigationError
    | .node l r =>
      if checkBit &&& g ≠ 0 then
        witnessLoopHex H g r (checkBit >>> 1)
          (w ++ ["0x" ++ bytesHex (l.merkle_root H)])
      else
        witnessLoopHex H g l (checkBit >>> 1)
          (w ++ ["0x" ++ bytesHex (r.merkle_root H)])
  else
    .ok (node, w)
termination_by checkBit
decreasing_by
  all_goals
    simp only [Nat.shiftRight_one]
    exact Nat.div_lt_self h (by omega)

/-- `compute_merkle_witness` exactly as returned by the source: the dict
with `root = merkle_tree.merkle_root().hex()` (no prefix), the witness
entries `"0x" + ....hex()`, and `value = node.merkle_root().hex()` (no
prefix). -/
def compute_merkle_witness_hex (H : Bytes → Bytes → Bytes) (tree : Node Bytes)
    (g : Nat) : Except PyError ProofHex :=
  let root := bytesHex (tree.merkle_root H)
  let shift : Int := (bit_length g : Int) - 2
  if shift < 0 then .error .valueError
  else
    match witnessLoopHex H g tree (1 <<< shift.toNat) [] with
    | .error e => .error e
    | .ok (node, w) => .ok ⟨g, root, w, bytesHex (node.merkle_root H)⟩

theorem witnessLoopHex_zero (H : Bytes → Bytes → Bytes) (g : Nat)
    (node : Node Bytes) (w : List String) :
    witnessLoopHex H g node 0 w = .ok (node, w) := by
  rw [witnessLoopHex.eq_def]
  simp

theorem witnessLoopHex_pos_leaf (H : Bytes → Bytes → Bytes) (g : Nat)
    (x : Bytes) (cb : Nat) (w : List String) (hcb : 0 < cb) :
    witnessLoopHex H g (.leaf x) cb w = .error .navigationError := by
  rw [witnessLoopHex.eq_def]
  simp [hcb]

theorem witnessLoopHex_pos_node (H : Bytes → Bytes → Bytes) (g : Nat)
    (l r : Node Bytes) (cb : Nat) (w : List String) (hcb : 0 < cb) :
    witnessLoopHex H g (.node l r) cb w =
      if cb &&& g ≠ 0 then
        witnessLoopHex H g r (cb >>> 1) (w ++ ["0x" ++ bytesHex (l.merkle_root H)])
      else
        witnessLoopHex H g l (cb >>> 1) (w ++ ["0x" ++ bytesHex (r.merkle_root H)]) := by
  rw [witnessLoopHex.eq_def]
  simp [hcb]

/-- The string-level loop is the hash-level loop followed by per-entry
rendering of the witness as `"0x" + hex`. -/
theorem witnessLoopHex_eq_map (H : Bytes → Bytes → Bytes) (g : Nat) :
    ∀ (cb : Nat) (node : Node Bytes) (ws : List Bytes),
      witnessLoopHex H g node cb (ws.map (fun h => "0x" ++ bytesHex h)) =
        (witnessLoop H g node cb ws).map
          (fun p => (p.1, p.2.map (fun h => "0x" ++ bytesHex h))) := by
  intro cb
  induction cb using Nat.strong_induction_on with
  | _ cb ih =>
    intro node ws
    by_cases hcb : 0 < cb
    · have hlt : cb >>> 1 < cb := by
        simp only [Nat.shiftRight_one]
        exact Nat.div_lt_self hcb (by omega)
      cases node with
      | leaf x =>
        rw [witnessLoopHex_pos_leaf H g x cb _ hcb,
          witnessLoop_pos_leaf H g x cb ws hcb]
        rfl
      | node l r =>
        rw [witnessLoopHex_pos_node H g l r cb _ hcb,
          witnessLoop_pos_node H g l r cb ws hcb]
        by_cases hc : cb &&& g ≠ 0
        · rw [if_pos hc, if_pos hc]
          have hmap : (ws.map (fun h => "0x" ++ bytesHex h)) ++
              ["0x" ++ bytesHex (l.merkle_root H)] =
              (ws ++ [l.merkle_root H]).map (fun h => "0x" ++ bytesHex h) := by
            simp
          rw [hmap, ih (cb >>> 1) hlt r (ws ++ [l.merkle_root H])]
        · rw [if_neg hc, if_neg hc]
          have hmap : (ws.map (fun h => "0x" ++ bytesHex h)) ++
              ["0x" ++ bytesHex (r.merkle_root H)] =
              (ws ++ [r.merkle_root H]).map (fun h => "0x" ++ bytesHex h) := by
            simp
          rw [hmap, ih (cb >>> 1) hlt l (ws ++ [r.merkle_root H])]
    · have hz : cb = 0 := by omega
      subst hz
      rw [witnessLoopHex_zero, witnessLoop_zero]
      rfl

/-- The source's dict is the hash-level Proof with `root` and `value`
rendered bare (`.hex()`, no prefix) and each witness entry rendered with a
`"0x"` prefix. -/
theorem compute_merkle_witness_hex_eq_map (H : Bytes → Bytes → Bytes)
    (tree : Node Bytes) (g : Nat) :
    compute_merkle_witness_hex H tree g =
      (compute_merkle_witness H tree g).map
        (fun p => ⟨p.gindex, bytesHex p.root,
                   p.witness.map (fun h => "0x" ++ bytesHex h),
                   bytesHex p.value⟩) := by
  unfold compute_merkle_witness_hex compute_merkle_witness
  by_cases hs : ((bit_length g : Int) - 2) < 0
  · rw [if_pos hs, if_pos hs]
    rfl
  · rw [if_neg hs, if_neg hs]
    have h0 : ([] : List String) = ([] : List Bytes).map (fun h => "0x" ++ bytesHex h) := rfl
    rw [h0, witnessLoopHex_eq_map H g _ tree []]
    cases witnessLoop H g tree (1 <<< ((bit_length g : Int) - 2).toNat) [] with
    | error e => rfl
    | ok p => rfl

theorem hexDigitChar_ne_x (n : Nat) : hexDigitChar n ≠ 'x' := by
  unfold hexDigitChar
  have h16 : n % 16 < 16 := Nat.mod_lt _ (by norm_num)
  generalize n % 16 = m at h16 ⊢
  interval_cases m <;> decide

/-- A bare `.hex()` rendering never starts with the two characters `0x`:
it is empty or its second character is a hexadecimal digit, never `x`. -/
theorem bytesHex_data_no_0x (bs : Bytes) :
    ∀ rest : List Char, (bytesHex bs).data ≠ '0' :: 'x' :: rest := by
  intro rest
  cases bs with
  | nil => simp [bytesHex]
  | cons b bs =>
    simp only [bytesHex, List.map_cons, List.flatten_cons, byteHexChars,
      List.cons_append, List.nil_append]
    intro hcontra
    have : hexDigitChar b = 'x' := by
      have := List.cons.injEq .. ▸ hcontra
      exact (List.cons.inj (List.cons.inj hcontra).2).1
    exact hexDigitChar_ne_x b this

/-- A witness entry as built by the source starts with the characters
`0`, `x`. -/
theorem prefixed_entry_data (h : Bytes) :
    ("0x" ++ bytesHex h).data = '0' :: 'x' :: (bytesHex h).data := by
  simp [String.data_append]

/-- Inversion of a successful run: success forces `g ≥ 2`, the structural
descent along the direction bits succeeds, and the Proof is exactly the one
described by `compute_merkle_witness_char`. -/
theorem compute_merkle_witness_ok (H : α → α → α) (tree : Node α) (g : Nat)
    (p : Proof α) (h : compute_merkle_witness H tree g = .ok p) :
    2 ≤ g ∧
      ∃ target, follow tree (bitsDown g (bit_length g - 1)) = some target ∧
        p = ⟨g, tree.merkle_root H,
             siblings H tree (bitsDown g (bit_length g - 1)),
             target.merkle_root H⟩ := by
  have hg : 2 ≤ g := by
    by_contra hg
    rw [compute_merkle_witness_lt_two H tree g (by omega)] at h
    exact absurd h (by simp)
  rw [compute_merkle_witness_char H tree g hg] at h
  refine ⟨hg, ?_⟩
  cases hfol : follow tree (bitsDown g (bit_length g - 1)) with
  | none =>
    rw [hfol] at h
    exact absurd h (by simp)
  | some target =>
    rw [hfol] at h
    simp only [Except.ok.injEq] at h
    exact ⟨target, rfl, h.symm⟩

/-! ## Concrete instances used by the closed witnesses -/

/-- A concrete injective combining function on naturals (a shifted Cantor
pairing), standing in for the 32-byte hash in closed instances. -/
def exH (a b : Nat) : Nat := (a + b) * (a + b + 1) / 2 + b + 1

/-- The depth-2 tree of the design document's concrete scenario, with leaf
hashes 10, 11, 12, 13. -/
def exTree : Node Nat :=
  .node (.node (.leaf 10) (.leaf 11)) (.node (.leaf 12) (.leaf 13))

/-- A single-leaf tree (depth 0). -/
def exLeaf : Node Nat := .leaf 7

/-- A concrete byte-level combining function (concatenation stand-in). -/
def exHB (a b : Bytes) : Bytes := a ++ b

/-- A concrete depth-1 tree of byte-sequence leaves. -/
def exTreeB : Node Bytes := .node (.leaf [1, 2]) (.leaf [171])

/-! ## The claims -/

/-- C1: for every tree and every gindex for which the Navigator
(`compute_merkle_witness`) produces a Proof, feeding the Proof's value and
witness through the Verifier's fold of section 4.2 (modelled from the spec,
as the source has no verifier) reconstructs exactly the Merkle root of the
original tree. -/
theorem round_trip_verifies (H : α → α → α) (tree : Node α) (g : Nat)
    (p : Proof α) (h : compute_merkle_witness H tree g = .ok p) :
    verify H p.value g p.witness = .ok (tree.merkle_root H) := by
  obtain ⟨hg, target, hfol, hp⟩ := compute_merkle_witness_ok H tree g p h
  subst hp
  show verify H (target.merkle_root H) g
      (siblings H tree (bitsDown g (bit_length g - 1))) = _
  have hlen : (siblings H tree (bitsDown g (bit_length g - 1))).length =
      bit_length g - 1 := by
    rw [siblings_length H _ _ _ hfol, bitsDown_length]
  unfold verify
  rw [if_pos hlen]
  rw [foldUp_eq_foldBits, List.length_reverse, hlen, lsbBits_eq_reverse]
  rw [foldBits_reconstruct H _ tree target hfol]

/-- Closed witness for C1: the round trip at the depth-2 tree and
gindex 6. -/
theorem round_trip_verifies_witness :
    compute_merkle_witness exH exTree 6 = .ok ⟨6, 169993, [243, 13], 12⟩ ∧
      verify exH (12 : Nat) 6 [243, 13] = .ok 169993 := by
  have h : compute_merkle_witness exH exTree 6 = .ok ⟨6, 169993, [243, 13], 12⟩ := by
    simp [compute_merkle_witness, witnessLoop.eq_def, bit_length, Nat.log2,
      exTree, exH, Node.merkle_root]
  refine ⟨h, ?_⟩
  have h2 := round_trip_verifies exH exTree 6 ⟨6, 169993, [243, 13], 12⟩ h
  have hroot : exTree.merkle_root exH = 169993 := by decide
  rw [hroot] at h2
  exact h2

/-- C2: for every root node and gindex `g > 1` whose direction-bit path fits
inside the tree, the traversal follows the specified algorithm — starting at
`check_bit = 1 << (bit_length g - 2)` it descends right exactly on the set
bits of `g` (appending the other child's root each step, shifting
`check_bit` right once per step), and when `check_bit` reaches 0 the proof's
value is the `root()` of the node reached. -/
theorem traversal_follows_bit_path (H : α → α → α) (tree : Node α) (g : Nat)
    (target : Node α) (hg : 1 < g)
    (hfit : follow tree (bitsDown g (bit_length g - 1)) = some target) :
    compute_merkle_witness H tree g =
      .ok ⟨g, tree.merkle_root H,
           siblings H tree (bitsDown g (bit_length g - 1)),
           target.merkle_root H⟩ := by
  rw [compute_merkle_witness_char H tree g hg, hfit]

/-- Closed witness for C2 at the depth-2 tree and gindex 6. -/
theorem traversal_follows_bit_path_witness :
    (1 : Nat) < 6 ∧
      follow exTree (bitsDown 6 (bit_length 6 - 1)) = some (.leaf 12) ∧
      compute_merkle_witness exH exTree 6 =
        .ok ⟨6, exTree.merkle_root exH,
             siblings exH exTree (bitsDown 6 (bit_length 6 - 1)),
             (Node.leaf 12).merkle_root exH⟩ := by
  have hfit : follow exTree (bitsDown 6 (bit_length 6 - 1)) = some (.leaf 12) := by
    simp [bit_length, Nat.log2, exTree, bitsDown, follow]
  exact ⟨by norm_num, hfit,
    traversal_follows_bit_path exH exTree 6 (.leaf 12) (by norm_num) hfit⟩

/-- C3 (behavior at the failing input of the code bug): at gindex 1 the
source computes `1 << (bit_length(1) - 2) = 1 << (-1)` and raises
`ValueError`; there is no explicit guard, and no Proof with an empty witness
is produced as the design document requires. -/
theorem root_gindex_raises_value_error (H : α → α → α) (tree : Node α) :
    compute_merkle_witness H tree 1 = .error .valueError :=
  compute_merkle_witness_lt_two H tree 1 (by norm_num)

/-- C4: whenever the Navigator succeeds, the witness has length exactly
`bit_length g - 1`. -/
theorem witness_length_eq_direction_bits (H : α → α → α) (tree : Node α)
    (g : Nat) (p : Proof α) (h : compute_merkle_witness H tree g = .ok p) :
    p.witness.length = bit_length g - 1 := by
  obtain ⟨hg, target, hfol, hp⟩ := compute_merkle_witness_ok H tree g p h
  subst hp
  show (siblings H tree (bitsDown g (bit_length g - 1))).length = _
  rw [siblings_length H _ _ _ hfol, bitsDown_length]

/-- Closed witness for C4 at the depth-2 tree and gindex 6. -/
theorem witness_length_eq_direction_bits_witness :
    compute_merkle_witness exH exTree 6 = .ok ⟨6, 169993, [243, 13], 12⟩ ∧
      ([243, 13] : List Nat).length = bit_length 6 - 1 := by
  have h : compute_merkle_witness exH exTree 6 = .ok ⟨6, 169993, [243, 13], 12⟩ := by
    simp [compute_merkle_witness, witnessLoop.eq_def, bit_length, Nat.log2,
      exTree, exH, Node.merkle_root]
  exact ⟨h, witness_length_eq_direction_bits exH exTree 6 _ h⟩

/-- C5: on the depth-2 tree with leaves `L0..L3` and root
`H(H(L0,L1), H(L2,L3))`, gindex 6 (`0b110`) yields the witness
`[H(L0,L1), L3]` and the value `L2`. -/
theorem depth_two_scenario (H : α → α → α) (L0 L1 L2 L3 : α) :
    compute_merkle_witness H
        (.node (.node (.leaf L0) (.leaf L1)) (.node (.leaf L2) (.leaf L3))) 6 =
      .ok ⟨6, H (H L0 L1) (H L2 L3), [H L0 L1, L3], L2⟩ := by
  simp [compute_merkle_witness, witnessLoop.eq_def, bit_length, Nat.log2,
    Node.merkle_root]

/-- C6: whenever the descent meets a leaf while direction bits remain, the
Navigator fails with the navigation error (the design document's
`OutOfRangeIndex`), deterministically and with no other outcome possible. -/
theorem leaf_reached_raises_navigation_error (H : α → α → α) (tree : Node α)
    (g : Nat) (hg : 1 < g)
    (hleaf : follow tree (bitsDown g (bit_length g - 1)) = none) :
    compute_merkle_witness H tree g = .error .navigationError := by
  rw [compute_merkle_witness_char H tree g hg, hleaf]

/-- Closed witness for C6: gindex 2 over a single-leaf tree. -/
theorem leaf_reached_raises_navigation_error_witness :
    (1 : Nat) < 2 ∧
      follow exLeaf (bitsDown 2 (bit_length 2 - 1)) = none ∧
      compute_merkle_witness exH exLeaf 2 = .error .navigationError := by
  have hleaf : follow exLeaf (bitsDown 2 (bit_length 2 - 1)) = none := by
    simp [bit_length, Nat.log2, exLeaf, bitsDown, follow]
  exact ⟨by norm_num, hleaf,
    leaf_reached_raises_navigation_error exH exLeaf 2 (by norm_num) hleaf⟩

/-- C7 counterexample: the code contains no `InvalidIndex` rejection.
`PyError` enumerates every error the source can surface, and at gindex 0 the
call fails with the generic negative-shift `ValueError` — the very same
error the code raises at the root index 1, which the design document calls
valid — so the failure at a non-positive gindex is not a dedicated
rejection of non-positive indexes. -/
theorem no_invalid_index_rejection :
    compute_merkle_witness exH exTree 0 = .error .valueError ∧
      compute_merkle_witness exH exTree 1 = .error .valueError := by
  constructor <;> simp [compute_merkle_witness, bit_length, Nat.log2]

/-- C7 amended: a gindex ≤ 0 makes the shift amount `bit_length(g) - 2`
negative, so the call fails before the traversal loop — but with the
`ValueError` of the negative shift (also raised at gindex 1), not with a
dedicated `InvalidIndex` error; the code never validates the gindex's
sign. -/
theorem nonpositive_gindex_value_error (H : α → α → α) (tree : Node α)
    (g : Nat) (hg : g ≤ 0) :
    compute_merkle_witness H tree g = .error .valueError :=
  compute_merkle_witness_lt_two H tree g (by omega)

/-- Closed witness for the amended C7 at gindex 0. -/
theorem nonpositive_gindex_value_error_witness :
    (0 : Nat) ≤ 0 ∧ compute_merkle_witness exH exTree 0 = .error .valueError :=
  ⟨Nat.le_refl 0, nonpositive_gindex_value_error exH exTree 0 (Nat.le_refl 0)⟩

/-- C8: the Navigator is deterministic — two calls with identical
`(root_node, gindex)` inputs return identical Proofs.  The embedding is a
pure function of the tree and the gindex (the traversal of the source only
reads `get_left`, `get_right` and `merkle_root`), so freedom from mutation
is reflected in the type of `compute_merkle_witness` itself. -/
theorem deterministic_on_equal_inputs (H : α → α → α) (t₁ t₂ : Node α)
    (g₁ g₂ : Nat) (ht : t₁ = t₂) (hg : g₁ = g₂) :
    compute_merkle_witness H t₁ g₁ = compute_merkle_witness H t₂ g₂ := by
  rw [ht, hg]

/-- Closed witness for C8 at the depth-2 tree and gindex 6. -/
theorem deterministic_on_equal_inputs_witness :
    exTree = exTree ∧ (6 : Nat) = 6 ∧
      compute_merkle_witness exH exTree 6 = compute_merkle_witness exH exTree 6 :=
  ⟨rfl, rfl, deterministic_on_equal_inputs exH exTree exTree 6 6 rfl rfl⟩

/-- C9: in every dict the source returns, each witness entry starts with the
characters `0`, `x`, while `root` and `value` (rendered by bare `.hex()`)
never start with them: the three hash-valued fields are not rendered
uniformly. -/
theorem witness_entries_0x_but_root_value_bare (H : Bytes → Bytes → Bytes)
    (tree : Node Bytes) (g : Nat) (d : ProofHex)
    (h : compute_merkle_witness_hex H tree g = .ok d) :
    (∀ s ∈ d.witness, ∃ rest, s.data = '0' :: 'x' :: rest) ∧
      (∀ rest, d.root.data ≠ '0' :: 'x' :: rest) ∧
      (∀ rest, d.value.data ≠ '0' :: 'x' :: rest) := by
  rw [compute_merkle_witness_hex_eq_map] at h
  cases hc : compute_merkle_witness H tree g with
  | error e =>
    rw [hc] at h
    exact absurd h (by simp [Except.map])
  | ok p =>
    rw [hc] at h
    simp only [Except.map, Except.ok.injEq] at h
    subst h
    refine ⟨?_, bytesHex_data_no_0x p.root, bytesHex_data_no_0x p.value⟩
    intro s hs
    simp only [List.mem_map] at hs
    obtain ⟨x, _, hx⟩ := hs
    exact ⟨(bytesHex x).data, hx ▸ prefixed_entry_data x⟩

/-- Closed witness for C9 at a concrete byte tree and gindex 2: the witness
entry is `"0xab"`, the root `"0102ab"` and the value `"0102"` carry no
prefix. -/
theorem witness_entries_0x_but_root_value_bare_witness :
    compute_merkle_witness_hex exHB exTreeB 2 =
        .ok ⟨2, "0102ab", ["0xab"], "0102"⟩ ∧
      (∀ s ∈ (ProofHex.mk 2 "0102ab" ["0xab"] "0102").witness,
        ∃ rest, s.data = '0' :: 'x' :: rest) ∧
      (∀ rest, (ProofHex.mk 2 "0102ab" ["0xab"] "0102").root.data ≠
        '0' :: 'x' :: rest) ∧
      (∀ rest, (ProofHex.mk 2 "0102ab" ["0xab"] "0102").value.data ≠
        '0' :: 'x' :: rest) := by
  have h : compute_merkle_witness_hex exHB exTreeB 2 =
      .ok ⟨2, "0102ab", ["0xab"], "0102"⟩ := by
    rw [compute_merkle_witness_hex_eq_map]
    have hh : compute_merkle_witness exHB exTreeB 2 =
        .ok ⟨2, [1, 2, 171], [[171]], [1, 2]⟩ := by
      simp [compute_merkle_witness, witnessLoop.eq_def, bit_length, Nat.log2,
        exHB, exTreeB, Node.merkle_root]
    rw [hh]
    simp only [Except.map, Except.ok.injEq]
    decide
  exact ⟨h, witness_entries_0x_but_root_value_bare exHB exTreeB 2 _ h⟩

/-- C10: whenever `compute_merkle_witness` returns, the `root` field of the
Proof equals the Merkle root of the input tree — it is computed once before
the traversal, so it depends on neither the gindex nor the traversal
outcome. -/
theorem root_field_is_tree_root (H : α → α → α) (tree : Node α) (g : Nat)
    (p : Proof α) (h : compute_merkle_witness H tree g = .ok p) :
    p.root = tree.merkle_root H := by
  obtain ⟨_, target, _, hp⟩ := compute_merkle_witness_ok H tree g p h
  subst hp
  rfl

/-- Closed witness for C10 at the depth-2 tree and gindex 6. -/
theorem root_field_is_tree_root_witness :
    compute_merkle_witness exH exTree 6 = .ok ⟨6, 169993, [243, 13], 12⟩ ∧
      (169993 : Nat) = exTree.merkle_root exH := by
  have h : compute_merkle_witness exH exTree 6 = .ok ⟨6, 169993, [243, 13], 12⟩ := by
    simp [compute_merkle_witness, witnessLoop.eq_def, bit_length, Nat.log2,
      exTree, exH, Node.merkle_root]
  exact ⟨h, root_field_is_tree_root exH exTree 6 _ h⟩
